import Mathlib

/-
Shallow embedding of the symbol table implemented in src/symtab.c.

Modelling conventions:
* A C string is modelled as the list of its byte values (`List Nat`), the
  terminating NUL byte excluded.  Valid C strings contain no interior NUL,
  and the keys handled by this program are ASCII, so byte values are
  in 1..127 wherever it matters.
* `void *` data payloads are modelled as an opaque machine word (`Nat`).
  The table never inspects them.
* Machine integers are modelled as `Nat`/`Int` with explicit `% 2^32`
  where 32-bit unsigned overflow matters (the hash function).
* Fallible or undefined executions are modelled with `Option`: `none`
  stands for undefined behaviour (out-of-bounds array access, null
  pointer dereference) or, for `symtabCreate`, a NULL return.
* malloc outcomes are modelled by explicit boolean oracles passed to the
  functions that allocate.
-/

namespace Symtab

/-- An entry of a bucket chain: `struct entry_s` of src/symtab.c, with the
`next` pointer represented by the position in a `List Entry`.
The `key` field of every entry created by the code is non-NULL (it is
assigned a fresh copy of the symbol at creation), so it is modelled as a
plain byte list. -/
structure Entry where
  key : List Nat
  value : Nat
deriving DecidableEq, Repr

/-- `struct hashtable_s`: a size and the bucket array.  A NULL bucket head
is the empty list. -/
structure Hashtable where
  size : Nat
  table : List (List Entry)
deriving DecidableEq, Repr

/-- Well-formed table handle: positive capacity and a bucket array of
exactly `size` slots.  Every table produced by a successful `symtabCreate`
satisfies this. -/
def WF (ht : Hashtable) : Prop := 0 < ht.size ∧ ht.table.length = ht.size

instance : DecidablePred WF := fun ht => by unfold WF; infer_instance

/-- C `strcmp` on byte lists, sign-normalised to -1/0/1.  The code only
compares the result with 0, so only the sign matters.  `strcmp` compares
the bytes of valid (NUL-free) strings, shorter strings ordering first. -/
def strcmp : List Nat → List Nat → Int
  | [], [] => 0
  | [], _ :: _ => -1
  | _ :: _, [] => 1
  | a :: as, b :: bs =>
    if a < b then -1 else if b < a then 1 else strcmp as bs

/-- The byte loop of `hash`: FNV-1a over the bytes of the string, on
32-bit unsigned arithmetic.  The C loop `while (*str)` stops at the first
NUL byte. -/
def hashLoop : Nat → List Nat → Nat
  | h, [] => h
  | h, c :: cs => if c = 0 then h else hashLoop (((h ^^^ c) * 16777619) % 2 ^ 32) cs

/-- The shift/XOR/add avalanche tail of `hash`.  Left shifts wrap modulo
2^32 (unsigned int), right shifts are division. -/
def avalanche (h0 : Nat) : Nat :=
  let h1 := (h0 + h0 * 2 ^ 13) % 2 ^ 32
  let h2 := h1 ^^^ h1 / 2 ^ 7
  let h3 := (h2 + h2 * 2 ^ 3) % 2 ^ 32
  let h4 := h3 ^^^ h3 / 2 ^ 17
  (h4 + h4 * 2 ^ 5) % 2 ^ 32

/-- `hash` of src/symtab.c: seed 2166136261, per-byte XOR-and-multiply by
16777619, avalanche mix, reduced modulo the table size. -/
def hash (ht : Hashtable) (str : List Nat) : Nat :=
  avalanche (hashLoop 2166136261 str) % ht.size

/-- The bucket selected for a key: `hashtable->table[bin]`.  In a
well-formed table the index is always in range. -/
def bucketOf (ht : Hashtable) (key : List Nat) : List Entry :=
  ht.table.getD (hash ht key) []

/-- `lookup` of src/symtab.c: reads only the head of the selected bucket.
`none` models the NULL return.  The source guard
`pair == NULL || pair->key == NULL || strcmp(key, pair->key) != 0`
collapses to the two cases below because entry keys are never NULL. -/
def lookup (ht : Hashtable) (key : List Nat) : Option Nat :=
  match bucketOf ht key with
  | [] => none
  | pair :: _ => if strcmp key pair.key ≠ 0 then none else some pair.value

/-- `symtabLookup`: delegates to `lookup` and returns its result; the
source's `if (data != NULL) return data; return NULL` is the identity on
the option.  (The source routes the pointer through an `int` local, an
implementation-defined narrowing on LP64; the conversion is modelled as
the identity.) -/
def symtabLookup (ht : Hashtable) (symbol : List Nat) : Option Nat :=
  lookup ht symbol

/-- The table produced by a successful `symtabCreate sizeHint`: `size`
slots, every bucket head NULL. -/
def createTable (n : Nat) : Hashtable :=
  ⟨n, List.replicate n []⟩

/-- `symtabCreate` with explicit malloc oracles: `allocTable` for the
`hashtable_t` struct, `allocBuckets` for the bucket array.  `none` models
the NULL return. -/
def symtabCreate (allocTable allocBuckets : Bool) (sizeHint : Int) : Option Hashtable :=
  if sizeHint < 1 then none
  else if allocTable = false then none
  else if allocBuckets = false then none
  else some (createTable sizeHint.toNat)

/-- The scan-and-splice loop of `symtabInstall` on one bucket chain,
with both mallocs assumed to succeed.  The source walks `last`/`next`
while `strcmp(symbol, next->key) > 0`; on an exact match it overwrites
`next->value` in place; otherwise it links a fresh entry before `next`
(the three splice arms — new head, new tail, interior — all amount to
inserting at the stop position).  The `next->key != NULL` guards are
always true because entry keys are never NULL. -/
def installChain (symbol : List Nat) (data : Nat) : List Entry → List Entry
  | [] => [⟨symbol, data⟩]
  | e :: rest =>
    if 0 < strcmp symbol e.key then e :: installChain symbol data rest
    else if strcmp symbol e.key = 0 then ⟨e.key, data⟩ :: rest
    else ⟨symbol, data⟩ :: e :: rest

/-- Whether the scan of `symtabInstall` stops on an entry whose key
equals the symbol (the update branch) rather than at an insertion
point. -/
def chainFind (symbol : List Nat) : List Entry → Bool
  | [] => false
  | e :: rest =>
    if 0 < strcmp symbol e.key then chainFind symbol rest
    else decide (strcmp symbol e.key = 0)

/-- Replace bucket `i` of the table: `hashtable->table[bin] = ...`. -/
def setBucket (ht : Hashtable) (i : Nat) (c : List Entry) : Hashtable :=
  ⟨ht.size, ht.table.set i c⟩

/-- `symtabInstall` with both mallocs succeeding: update-or-insert on the
bucket selected by `hash`.  Returns the new table; the C return value is
1 on this path. -/
def symtabInstall (ht : Hashtable) (symbol : List Nat) (data : Nat) : Hashtable :=
  setBucket ht (hash ht symbol) (installChain symbol data (bucketOf ht symbol))

/-- `symtabInstall` with explicit malloc oracles: `entryAlloc` for the
`entry_t` node, `keyAlloc` for the key copy.  The update branch performs
no allocation.  If the node malloc fails the source returns 0 with the
table untouched.  If the node malloc succeeds but the key malloc fails,
the source runs `strcpy(NULL, symbol)` — undefined behaviour, modelled
as `none`.  Otherwise the splice happens and 1 is returned. -/
def symtabInstallA (entryAlloc keyAlloc : Bool) (ht : Hashtable) (symbol : List Nat)
    (data : Nat) : Option (Hashtable × Int) :=
  if chainFind symbol (bucketOf ht symbol) then some (symtabInstall ht symbol data, 1)
  else if entryAlloc = false then some (ht, 0)
  else if keyAlloc = false then none
  else some (symtabInstall ht symbol data, 1)

/-- A table reached from `ht` by a sequence of (always-successful)
installs, applied left to right. -/
def runInstalls : Hashtable → List (List Nat × Nat) → Hashtable
  | ht, [] => ht
  | ht, (k, v) :: ops => runInstalls (symtabInstall ht k v) ops

/-- The bucket indices visited by the teardown loop of `symtabDelete`:
`for (int i = 0; i <= hashtable->size; i++)` visits `0 .. size`
inclusive. -/
def deleteIndices (ht : Hashtable) : List Nat :=
  List.range (ht.size + 1)

/-- One iteration of the `symtabDelete` loop body at index `i`:
`iterate = hashtable->table[i]; if (iterate->key != NULL) free(...)`.
Reading `table[i]` past the array is undefined (`none`), and so is
dereferencing `iterate->key` when the bucket head is NULL.  On a
non-empty bucket only the head's key is freed; the rest of the chain is
never visited. -/
def deleteStep (ht : Hashtable) (i : Nat) : Option (List Nat) :=
  match ht.table.get? i with
  | none => none
  | some [] => none
  | some (e :: _) => some e.key

/-- Run the `symtabDelete` loop over a list of indices, collecting the
freed key copies; `none` as soon as any step is undefined. -/
def deleteRun (ht : Hashtable) : List Nat → Option (List (List Nat))
  | [] => some []
  | i :: is =>
    match deleteStep ht i with
    | none => none
    | some k =>
      match deleteRun ht is with
      | none => none
      | some ks => some (k :: ks)

/-- `symtabDelete`: the teardown loop over indices `0 .. size` inclusive.
The result is the list of freed key copies, or `none` if the run hits
undefined behaviour. -/
def symtabDelete (ht : Hashtable) : Option (List (List Nat)) :=
  deleteRun ht (deleteIndices ht)

/-- The `elem` field of `struct hash_elem_it_s`: either a pointer into a
bucket chain (`chain suffix`, with `[]` standing for NULL), or the
malloc'd header node built at the end of `symtabCreateIterator`, whose
`key`/`value` fields are never read and whose `next` field is
represented by `next` (again `[]` for NULL). -/
inductive ElemPtr where
  | chain (suffix : List Entry)
  | dummy (next : List Entry)
deriving DecidableEq, Repr

/-- `struct hash_elem_it_s` minus the table pointer (the table is passed
alongside): current bucket index and current element pointer. -/
structure Iter where
  index : Nat
  elem : ElemPtr
deriving DecidableEq, Repr

/-- The do-while bucket scan shared by `symtabCreateIterator` and
`symtabNext`.  The body runs first on the current `(index, elem)`: a
non-NULL element breaks out; otherwise the index is incremented and
`table[index]` is re-read — reading past the array is undefined
(`none`).  The loop repeats while the incremented index is `< size - 1`.
The `elem->key != NULL` half of the break test is always true because
entry keys are never NULL. -/
def bucketScan (ht : Hashtable) (index : Nat) (elem : List Entry) :
    Option (Nat × List Entry) :=
  match elem with
  | e :: rest => some (index, e :: rest)
  | [] =>
    match ht.table.get? (index + 1) with
    | none => none
    | some elem2 =>
      if h : index + 1 < ht.size - 1 then bucketScan ht (index + 1) elem2
      else some (index + 1, elem2)
termination_by ht.size - index
decreasing_by
  omega

/-- `symtabCreateIterator` with the two mallocs (iterator struct and
header node) assumed to succeed: start at `table[0]`, run the bucket
scan, then prepend the header node.  `none` models the undefined
out-of-bounds read the scan can perform. -/
def symtabCreateIterator (ht : Hashtable) : Option Iter :=
  match ht.table.get? 0 with
  | none => none
  | some elem0 =>
    match bucketScan ht 0 elem0 with
    | none => none
    | some (i, elem) => some ⟨i, ElemPtr.dummy elem⟩

/-- The bucket-advance arm of `symtabNext` (taken when `elem->next` is
NULL): increment the stored index, return NULL if it reaches the size
(leaving `elem` untouched), otherwise re-read `table[index]` and run the
bucket scan, then the common tail `if (it->elem == NULL) return NULL`
else yield the element.  The result triple is (new iterator state, final
contents of `*returnData`, returned key or NULL). -/
def nextBucket (ht : Hashtable) (elem0 : ElemPtr) (index : Nat) (returnData : Nat) :
    Option (Iter × Nat × Option (List Nat)) :=
  if ht.size ≤ index + 1 then some (⟨index + 1, elem0⟩, returnData, none)
  else
    match ht.table.get? (index + 1) with
    | none => none
    | some elem1 =>
      match bucketScan ht (index + 1) elem1 with
      | none => none
      | some (i2, []) => some (⟨i2, ElemPtr.chain []⟩, returnData, none)
      | some (i2, e :: rest) =>
        some (⟨i2, ElemPtr.chain (e :: rest)⟩, e.value, some e.key)

/-- `symtabNext`.  The first statement dereferences `it->elem->next`, so
a NULL `elem` is undefined (`none`).  If `elem->next` is non-NULL the
cursor advances within the chain (for the header node, onto the chain)
and the common tail yields the new element, writing its value to
`*returnData` and returning its key; otherwise the bucket-advance arm
runs.  The result triple is (new iterator state, final contents of
`*returnData`, returned key or NULL-for-exhaustion). -/
def symtabNext (ht : Hashtable) (it : Iter) (returnData : Nat) :
    Option (Iter × Nat × Option (List Nat)) :=
  match it.elem with
  | ElemPtr.chain [] => none
  | ElemPtr.chain (_ :: r :: rest) =>
    some (⟨it.index, ElemPtr.chain (r :: rest)⟩, r.value, some r.key)
  | ElemPtr.chain [e] => nextBucket ht (ElemPtr.chain [e]) it.index returnData
  | ElemPtr.dummy [] => nextBucket ht (ElemPtr.dummy []) it.index returnData
  | ElemPtr.dummy (e :: rest) =>
    some (⟨it.index, ElemPtr.chain (e :: rest)⟩, e.value, some e.key)

/-- All keys stored in the table, bucket by bucket. -/
def tableKeys (ht : Hashtable) : List (List Nat) :=
  (ht.table.map fun c => c.map Entry.key).flatten

/-- Total number of entries stored in the table. -/
def numEntries (ht : Hashtable) : Nat :=
  (ht.table.map List.length).sum

/-- Strict key order between entries, as the code compares them. -/
def entLt (a b : Entry) : Prop := strcmp a.key b.key < 0

instance : DecidableRel entLt := fun a b => by unfold entLt; infer_instance

/-- The Bool form of the scan guard `strcmp(symbol, next->key) > 0`. -/
def gtKey (symbol : List Nat) (e : Entry) : Bool := decide (0 < strcmp symbol e.key)

/-- The invariant maintained by `symtabCreate` and `symtabInstall`:
well-formed handle, every bucket chain strictly sorted by key, and every
entry stored in the bucket its key hashes to. -/
structure Inv (ht : Hashtable) : Prop where
  pos : 0 < ht.size
  len : ht.table.length = ht.size
  sorted : ∀ c ∈ ht.table, List.Pairwise entLt c
  hok : ∀ i c, ht.table.get? i = some c → ∀ e ∈ c, hash ht e.key = i

theorem strcmp_self (a : List Nat) : strcmp a a = 0 := by
  induction a with
  | nil => rfl
  | cons x xs ih => simp [strcmp, ih]

theorem strcmp_eq_zero_iff {a b : List Nat} : strcmp a b = 0 ↔ a = b := by
  induction a generalizing b with
  | nil => cases b <;> simp [strcmp]
  | cons x xs ih =>
    cases b with
    | nil => simp [strcmp]
    | cons y ys =>
      rcases Nat.lt_trichotomy x y with h | h | h
      · rw [strcmp, if_pos h]
        constructor
        · intro hc; exact absurd hc (by decide)
        · intro hc
          injection hc with h1 h2
          omega
      · subst h
        rw [strcmp, if_neg (by omega), if_neg (by omega)]
        rw [ih]
        constructor
        · intro hc; rw [hc]
        · intro hc; injection hc
      · rw [strcmp, if_neg (by omega), if_pos h]
        constructor
        · intro hc; exact absurd hc (by decide)
        · intro hc
          injection hc with h1 h2
          omega

theorem strcmp_swap (a b : List Nat) : strcmp b a = -strcmp a b := by
  induction a generalizing b with
  | nil => cases b <;> simp [strcmp]
  | cons x xs ih =>
    cases b with
    | nil => simp [strcmp]
    | cons y ys =>
      rcases Nat.lt_trichotomy x y with h | h | h
      · rw [strcmp, if_neg (by omega), if_pos h, strcmp, if_pos h]
        rfl
      · subst h
        rw [strcmp, if_neg (by omega), if_neg (by omega),
          strcmp, if_neg (by omega), if_neg (by omega)]
        exact ih ys
      · rw [strcmp, if_pos h, strcmp, if_neg (by omega), if_pos h]

theorem strcmp_lt_trans {a b c : List Nat} (hab : strcmp a b < 0) (hbc : strcmp b c < 0) :
    strcmp a c < 0 := by
  induction a generalizing b c with
  | nil =>
    cases c with
    | nil =>
      cases b with
      | nil => exact absurd hab (by simp [strcmp])
      | cons y ys => exact absurd hbc (by simp [strcmp])
    | cons z zs => simp [strcmp]
  | cons x xs ih =>
    cases b with
    | nil => exact absurd hab (by simp [strcmp])
    | cons y ys =>
      cases c with
      | nil => exact absurd hbc (by simp [strcmp])
      | cons z zs =>
        rw [strcmp] at hab hbc ⊢
        rcases Nat.lt_trichotomy x y with h1 | h1 | h1
        · rcases Nat.lt_trichotomy y z with h2 | h2 | h2
          · rw [if_pos (by omega)]; decide
          · subst h2; rw [if_pos h1]; decide
          · rw [if_neg (by omega), if_pos h2] at hbc
            exact absurd hbc (by decide)
        · subst h1
          rcases Nat.lt_trichotomy x z with h2 | h2 | h2
          · rw [if_pos h2]; decide
          · subst h2
            rw [if_neg (by omega), if_neg (by omega)] at hab hbc ⊢
            exact ih hab hbc
          · rw [if_neg (by omega), if_pos h2] at hbc
            exact absurd hbc (by decide)
        · rw [if_neg (by omega), if_pos h1] at hab
          exact absurd hab (by decide)

theorem strcmp_pos_iff {a b : List Nat} : 0 < strcmp a b ↔ strcmp b a < 0 := by
  rw [strcmp_swap b a]
  omega

theorem entLt_trans {a b c : Entry} (h1 : entLt a b) (h2 : entLt b c) : entLt a c :=
  strcmp_lt_trans h1 h2

theorem entLt_key_ne {a b : Entry} (h : entLt a b) : a.key ≠ b.key := by
  intro hc
  unfold entLt at h
  rw [hc, strcmp_self] at h
  exact absurd h (by decide)

theorem dropWhile_head_false {p : Entry → Bool} {l : List Entry} {e : Entry} {ds : List Entry}
    (h : l.dropWhile p = e :: ds) : p e = false := by
  induction l with
  | nil => exact absurd h (by simp)
  | cons a as ih =>
    rw [List.dropWhile_cons] at h
    by_cases hp : p a = true
    · rw [if_pos hp] at h
      exact ih h
    · rw [if_neg hp] at h
      injection h with h1 h2
      subst h1
      simpa using hp

theorem mem_keys_installChain {k x : List Nat} {v : Nat} {c : List Entry} :
    x ∈ (installChain k v c).map Entry.key ↔ x = k ∨ x ∈ c.map Entry.key := by
  induction c with
  | nil => simp [installChain, eq_comm]
  | cons e rest ih =>
    rw [installChain]
    rcases Int.lt_trichotomy 0 (strcmp k e.key) with h | h | h
    · rw [if_pos h]
      simp only [List.map_cons, List.mem_cons, ih]
      tauto
    · have hk : k = e.key := strcmp_eq_zero_iff.mp h.symm
      rw [if_neg (by omega), if_pos h.symm]
      simp only [List.map_cons, List.mem_cons]
      subst hk
      tauto
    · rw [if_neg (by omega), if_neg (by omega)]
      simp only [List.map_cons, List.mem_cons]

theorem key_mem_installChain (k : List Nat) (v : Nat) (c : List Entry) :
    k ∈ (installChain k v c).map Entry.key :=
  mem_keys_installChain.mpr (Or.inl rfl)

theorem installChain_of_not_mem {k : List Nat} {v : Nat} {c : List Entry}
    (h : k ∉ c.map Entry.key) :
    installChain k v c = c.takeWhile (gtKey k) ++ ⟨k, v⟩ :: c.dropWhile (gtKey k) := by
  induction c with
  | nil => simp [installChain]
  | cons e rest ih =>
    have hne : k ≠ e.key := by
      intro hc
      exact h (by simp [hc])
    have hrest : k ∉ rest.map Entry.key := by
      intro hc
      exact h (by simp [hc])
    rw [installChain]
    rcases Int.lt_trichotomy 0 (strcmp k e.key) with hlt | heq | hgt
    · rw [if_pos hlt, List.takeWhile_cons, List.dropWhile_cons]
      have hg : gtKey k e = true := by simp [gtKey, hlt]
      rw [if_pos hg, if_pos hg, ih hrest]
      rfl
    · exact absurd (strcmp_eq_zero_iff.mp heq.symm) hne
    · rw [if_neg (by omega), if_neg (by omega), List.takeWhile_cons, List.dropWhile_cons]
      have hg : ¬ gtKey k e = true := by simp [gtKey]; omega
      rw [if_neg hg, if_neg hg]
      rfl

theorem installChain_of_mem {k : List Nat} {v : Nat} {c : List Entry}
    (hs : List.Pairwise entLt c) (h : k ∈ c.map Entry.key) :
    installChain k v c = c.map fun e => if e.key = k then ⟨e.key, v⟩ else e := by
  induction c with
  | nil => exact absurd h (by simp)
  | cons e rest ih =>
    rw [List.pairwise_cons] at hs
    rw [installChain]
    rcases Int.lt_trichotomy 0 (strcmp k e.key) with hlt | heq | hgt
    · have hne : e.key ≠ k := by
        intro hc
        rw [hc, strcmp_self] at hlt
        exact absurd hlt (by decide)
      have hmem : k ∈ rest.map Entry.key := by
        rcases (by simpa using h : k = e.key ∨ ∃ a ∈ rest, a.key = k) with h1 | ⟨f, hf, hfk⟩
        · exact absurd h1.symm hne
        · exact List.mem_map.mpr ⟨f, hf, hfk⟩
      rw [if_pos hlt, ih hs.2 hmem, List.map_cons, if_neg hne]
    · have hk : k = e.key := strcmp_eq_zero_iff.mp heq.symm
      rw [if_neg (by omega), if_pos heq.symm, List.map_cons, if_pos hk.symm]
      have hrest : rest.map (fun f => if f.key = k then (⟨f.key, v⟩ : Entry) else f) = rest := by
        have : ∀ f ∈ rest, (if f.key = k then (⟨f.key, v⟩ : Entry) else f) = id f := by
          intro f hf
          have : f.key ≠ k := by
            intro hc
            exact entLt_key_ne (hs.1 f hf) (hc.trans hk).symm
          simp [this]
        rw [List.map_congr_left this, List.map_id]
      rw [hrest]
    · exfalso
      have hne : k ≠ e.key := by
        intro hc
        rw [hc, strcmp_self] at hgt
        exact absurd hgt (by decide)
      obtain ⟨f, hf, hfk⟩ : ∃ a ∈ rest, a.key = k := by
        rcases (by simpa using h : k = e.key ∨ ∃ a ∈ rest, a.key = k) with h1 | h1
        · exact absurd h1 hne
        · exact h1
      have h1 : strcmp e.key k < 0 := by
        have := hs.1 f hf
        unfold entLt at this
        rwa [hfk] at this
      have h2 : 0 < strcmp e.key k := strcmp_pos_iff.mpr (by omega)
      omega

theorem installChain_sorted {k : List Nat} {v : Nat} {c : List Entry}
    (hs : List.Pairwise entLt c) : List.Pairwise entLt (installChain k v c) := by
  by_cases hmem : k ∈ c.map Entry.key
  · rw [installChain_of_mem hs hmem]
    refine List.Pairwise.map _ ?_ hs
    intro a b hab
    have ha : (if a.key = k then (⟨a.key, v⟩ : Entry) else a).key = a.key := by
      split <;> rfl
    have hb : (if b.key = k then (⟨b.key, v⟩ : Entry) else b).key = b.key := by
      split <;> rfl
    unfold entLt at hab ⊢
    rw [ha, hb]
    exact hab
  · rw [installChain_of_not_mem hmem]
    have hTD : c.takeWhile (gtKey k) ++ c.dropWhile (gtKey k) = c :=
      List.takeWhile_append_dropWhile (gtKey k) c
    have hsplit : List.Pairwise entLt (c.takeWhile (gtKey k) ++ c.dropWhile (gtKey k)) := by
      rw [hTD]; exact hs
    rw [List.pairwise_append] at hsplit
    obtain ⟨hsT, hsD, hcross⟩ := hsplit
    have hTnew : ∀ e ∈ c.takeWhile (gtKey k), entLt e ⟨k, v⟩ := by
      intro e he
      have hp : gtKey k e = true := List.mem_takeWhile_imp he
      have : 0 < strcmp k e.key := by simpa [gtKey] using hp
      exact strcmp_pos_iff.mp this
    have hnewD : ∀ d ∈ c.dropWhile (gtKey k), entLt (⟨k, v⟩ : Entry) d := by
      intro d hd
      rcases hD : c.dropWhile (gtKey k) with _ | ⟨h0, ds⟩
      · rw [hD] at hd; exact absurd hd (by simp)
      · have hh0 : entLt (⟨k, v⟩ : Entry) h0 := by
          have hp : gtKey k h0 = false := dropWhile_head_false hD
          have h1 : ¬ 0 < strcmp k h0.key := by
            intro hc
            simp [gtKey, hc] at hp
          have h2 : k ≠ h0.key := by
            intro hc
            refine hmem ?_
            have hsub : (c.dropWhile (gtKey k)).Sublist c := List.dropWhile_sublist _
            have : h0 ∈ c := hsub.subset (hD ▸ List.mem_cons_self h0 ds)
            exact List.mem_map.mpr ⟨h0, this, hc.symm⟩
          have h3 : strcmp k h0.key ≠ 0 := fun hc => h2 (strcmp_eq_zero_iff.mp hc)
          show strcmp (⟨k, v⟩ : Entry).key h0.key < 0
          show strcmp k h0.key < 0
          omega
        rw [hD] at hd
        rcases List.mem_cons.mp hd with h1 | h1
        · rw [h1]; exact hh0
        · have hsD' : List.Pairwise entLt (h0 :: ds) := hD ▸ hsD
          exact entLt_trans hh0 ((List.pairwise_cons.mp hsD').1 d h1)
    rw [List.pairwise_append]
    refine ⟨hsT, List.pairwise_cons.mpr ⟨hnewD, hsD⟩, ?_⟩
    intro a ha b hb
    rcases List.mem_cons.mp hb with h1 | h1
    · rw [h1]; exact hTnew a ha
    · exact hcross a ha b h1

theorem chainFind_iff {k : List Nat} {c : List Entry} (hs : List.Pairwise entLt c) :
    chainFind k c = true ↔ k ∈ c.map Entry.key := by
  induction c with
  | nil => simp [chainFind]
  | cons e rest ih =>
    rw [List.pairwise_cons] at hs
    rw [chainFind]
    rcases Int.lt_trichotomy 0 (strcmp k e.key) with hlt | heq | hgt
    · have hne : k ≠ e.key := by
        intro hc
        rw [hc, strcmp_self] at hlt
        exact absurd hlt (by decide)
      rw [if_pos hlt, ih hs.2]
      simp [hne, eq_comm]
    · have hk : k = e.key := strcmp_eq_zero_iff.mp heq.symm
      rw [if_neg (by omega)]
      constructor
      · intro _
        exact List.mem_map.mpr ⟨e, List.mem_cons_self e rest, hk.symm⟩
      · intro _
        exact decide_eq_true heq.symm
    · have hne : k ≠ e.key := by
        intro hc
        rw [hc, strcmp_self] at hgt
        exact absurd hgt (by decide)
      have hnrest : k ∉ rest.map Entry.key := by
        intro hc
        rcases List.mem_map.mp hc with ⟨f, hf, hfk⟩
        have h1 : strcmp e.key k < 0 := by
          have := hs.1 f hf
          unfold entLt at this
          rwa [hfk] at this
        have h2 : 0 < strcmp e.key k := strcmp_pos_iff.mpr (by omega)
        omega
      rw [if_neg (by omega)]
      simp only [List.map_cons, List.mem_cons]
      constructor
      · intro hc
        exact absurd (strcmp_eq_zero_iff.mp (by simpa using hc)) hne
      · intro hc
        rcases hc with h1 | h1
        · exact absurd h1 hne
        · exact absurd h1 hnrest

theorem length_installChain_mem {k : List Nat} {v : Nat} {c : List Entry}
    (hs : List.Pairwise entLt c) (h : k ∈ c.map Entry.key) :
    (installChain k v c).length = c.length := by
  rw [installChain_of_mem hs h]
  simp

theorem length_installChain_not_mem {k : List Nat} {v : Nat} {c : List Entry}
    (h : k ∉ c.map Entry.key) :
    (installChain k v c).length = c.length + 1 := by
  rw [installChain_of_not_mem h]
  have := congrArg List.length (List.takeWhile_append_dropWhile (gtKey k) c)
  simp only [List.length_append] at this
  simp only [List.length_append, List.length_cons]
  omega

theorem get?_getD {l : List (List Entry)} {n : Nat} (h : n < l.length) :
    l.get? n = some (l.getD n []) := by
  induction l generalizing n with
  | nil => simp at h
  | cons a as ih =>
    cases n with
    | zero => rfl
    | succ m => exact ih (by simpa using h)

theorem hash_congr {ht ht' : Hashtable} (h : ht'.size = ht.size) (x : List Nat) :
    hash ht' x = hash ht x := by
  unfold hash
  rw [h]

theorem hash_lt {ht : Hashtable} (hpos : 0 < ht.size) (x : List Nat) :
    hash ht x < ht.size :=
  Nat.mod_lt _ hpos

theorem get?_bucketOf {ht : Hashtable} (hlen : ht.table.length = ht.size)
    (hpos : 0 < ht.size) (k : List Nat) :
    ht.table.get? (hash ht k) = some (bucketOf ht k) :=
  get?_getD (by rw [hlen]; exact hash_lt hpos k)

theorem bucketOf_mem {ht : Hashtable} (hlen : ht.table.length = ht.size)
    (hpos : 0 < ht.size) (k : List Nat) : bucketOf ht k ∈ ht.table :=
  List.get?_mem (get?_bucketOf hlen hpos k)

theorem inv_createTable {n : Nat} (hn : 0 < n) : Inv (createTable n) := by
  refine ⟨hn, by simp [createTable], ?_, ?_⟩
  · intro c hc
    rw [List.eq_of_mem_replicate hc]
    exact List.Pairwise.nil
  · intro i c hc e he
    rw [List.eq_of_mem_replicate (List.get?_mem hc)] at he
    exact absurd he (by simp)

theorem symtabInstall_size (ht : Hashtable) (k : List Nat) (v : Nat) :
    (symtabInstall ht k v).size = ht.size := rfl

theorem bucketOf_symtabInstall {ht : Hashtable} (hlen : ht.table.length = ht.size)
    (hpos : 0 < ht.size) (k : List Nat) (v : Nat) :
    bucketOf (symtabInstall ht k v) k = installChain k v (bucketOf ht k) := by
  unfold bucketOf symtabInstall setBucket
  have hh : hash { size := ht.size, table := ht.table.set (hash ht k) (installChain k v (bucketOf ht k)) } k = hash ht k :=
    hash_congr rfl k
  rw [hh]
  have hlt : hash ht k < ht.table.length := by rw [hlen]; exact hash_lt hpos k
  have := List.get?_set_eq_of_lt (installChain k v (bucketOf ht k)) hlt (l := ht.table)
  have h2 : (ht.table.set (hash ht k) (installChain k v (bucketOf ht k))).get? (hash ht k)
      = some (installChain k v (bucketOf ht k)) := this
  have h3 := get?_getD (l := ht.table.set (hash ht k) (installChain k v (bucketOf ht k)))
    (n := hash ht k) (by simpa using hlt)
  rw [h2] at h3
  exact (Option.some_injective _ h3).symm

theorem inv_symtabInstall {ht : Hashtable} (h : Inv ht) (k : List Nat) (v : Nat) :
    Inv (symtabInstall ht k v) := by
  have hlt : hash ht k < ht.table.length := by rw [h.len]; exact hash_lt h.pos k
  have hbs : List.Pairwise entLt (bucketOf ht k) :=
    h.sorted _ (bucketOf_mem h.len h.pos k)
  refine ⟨h.pos, by simp [symtabInstall, setBucket, h.len], ?_, ?_⟩
  · intro c hc
    rcases List.mem_or_eq_of_mem_set hc with h1 | h1
    · exact h.sorted c h1
    · rw [h1]
      exact installChain_sorted hbs
  · intro i c hc e he
    simp only [symtabInstall, setBucket] at hc
    have hsz : hash (symtabInstall ht k v) e.key = hash ht e.key := hash_congr rfl e.key
    rw [hsz]
    by_cases hib : i = hash ht k
    · subst hib
      have h2 : (ht.table.set (hash ht k) (installChain k v (bucketOf ht k))).get? (hash ht k)
          = some (installChain k v (bucketOf ht k)) :=
        List.get?_set_eq_of_lt _ hlt
      have hceq : c = installChain k v (bucketOf ht k) := by
        have := hc.symm.trans h2
        exact Option.some_injective _ this
      subst hceq
      have hkey : e.key ∈ (installChain k v (bucketOf ht k)).map Entry.key :=
        List.mem_map.mpr ⟨e, he, rfl⟩
      rcases mem_keys_installChain.mp hkey with h3 | h3
      · rw [h3]
      · rcases List.mem_map.mp h3 with ⟨f, hf, hfk⟩
        have := h.hok (hash ht k) (bucketOf ht k) (get?_bucketOf h.len h.pos k) f hf
        rw [← hfk]
        exact this
    · have h2 : (ht.table.set (hash ht k) (installChain k v (bucketOf ht k))).get? i
          = ht.table.get? i := List.get?_set_ne _ _ (Ne.symm hib)
      exact h.hok i c (h2.symm.trans hc) e he

theorem mem_tableKeys {ht : Hashtable} {x : List Nat} :
    x ∈ tableKeys ht ↔ ∃ i c, ht.table.get? i = some c ∧ x ∈ c.map Entry.key := by
  unfold tableKeys
  rw [List.mem_flatten]
  constructor
  · rintro ⟨l, hl, hx⟩
    rcases List.mem_map.mp hl with ⟨c, hc, rfl⟩
    rcases List.mem_iff_get?.mp hc with ⟨i, hi⟩
    exact ⟨i, c, hi, hx⟩
  · rintro ⟨i, c, hi, hx⟩
    exact ⟨c.map Entry.key, List.mem_map.mpr ⟨c, List.mem_iff_get?.mpr ⟨i, hi⟩, rfl⟩, hx⟩

theorem nodup_tableKeys {ht : Hashtable} (h : Inv ht) : (tableKeys ht).Nodup := by
  unfold tableKeys
  rw [List.nodup_flatten]
  constructor
  · intro l hl
    rcases List.mem_map.mp hl with ⟨c, hc, rfl⟩
    exact List.Pairwise.map _ (fun a b hab => entLt_key_ne hab) (h.sorted c hc)
  · rw [List.pairwise_map]
    rw [List.pairwise_iff_get]
    intro i j hij
    intro x hxi hxj
    rcases List.mem_map.mp hxi with ⟨e, he, hek⟩
    rcases List.mem_map.mp hxj with ⟨f, hf, hfk⟩
    have h1 := h.hok i (ht.table.get i) (List.get?_eq_get i.isLt) e he
    have h2 := h.hok j (ht.table.get j) (List.get?_eq_get j.isLt) f hf
    rw [hek] at h1
    rw [hfk] at h2
    have : (i : Nat) = (j : Nat) := by rw [← h1, ← h2]
    omega

theorem sum_length_set (l : List (List Entry)) (i : Nat) (c : List Entry)
    (h : i < l.length) :
    ((l.set i c).map List.length).sum + (l.getD i []).length
      = (l.map List.length).sum + c.length := by
  induction l generalizing i with
  | nil => simp at h
  | cons hd tl ih =>
    cases i with
    | zero =>
      simp only [List.set_cons_zero, List.map_cons, List.sum_cons, List.getD_cons_zero]
      omega
    | succ j =>
      simp only [List.set_cons_succ, List.map_cons, List.sum_cons, List.getD_cons_succ]
      have := ih j (by simpa using h)
      omega

theorem numEntries_eq_length_tableKeys (ht : Hashtable) :
    numEntries ht = (tableKeys ht).length := by
  unfold numEntries tableKeys
  rw [List.length_flatten, List.map_map]
  have h : ht.table.map (List.length ∘ fun c => List.map Entry.key c) = ht.table.map List.length :=
    List.map_congr_left (fun c _ => by simp)
  rw [h]

theorem numEntries_symtabInstall {ht : Hashtable} (h : Inv ht) (k : List Nat) (v : Nat) :
    numEntries (symtabInstall ht k v)
      = numEntries ht + (if k ∈ (bucketOf ht k).map Entry.key then 0 else 1) := by
  have hlt : hash ht k < ht.table.length := by rw [h.len]; exact hash_lt h.pos k
  have hbs : List.Pairwise entLt (bucketOf ht k) :=
    h.sorted _ (bucketOf_mem h.len h.pos k)
  have hsum := sum_length_set ht.table (hash ht k) (installChain k v (bucketOf ht k)) hlt
  have hget : ht.table.getD (hash ht k) [] = bucketOf ht k := rfl
  rw [hget] at hsum
  have hne : numEntries (symtabInstall ht k v)
      = ((ht.table.set (hash ht k) (installChain k v (bucketOf ht k))).map List.length).sum := rfl
  have hne2 : numEntries ht = (ht.table.map List.length).sum := rfl
  by_cases hm : k ∈ (bucketOf ht k).map Entry.key
  · rw [if_pos hm]
    have hl2 := length_installChain_mem (v := v) hbs hm
    omega
  · rw [if_neg hm]
    have hl2 := length_installChain_not_mem (v := v) hm
    omega

theorem toFinset_tableKeys_install {ht : Hashtable} (h : Inv ht) (k : List Nat) (v : Nat) :
    (tableKeys (symtabInstall ht k v)).toFinset = insert k (tableKeys ht).toFinset := by
  have hlt : hash ht k < ht.table.length := by rw [h.len]; exact hash_lt h.pos k
  ext x
  simp only [List.mem_toFinset, Finset.mem_insert]
  rw [mem_tableKeys, mem_tableKeys]
  constructor
  · rintro ⟨i, c, hi, hx⟩
    simp only [symtabInstall, setBucket] at hi
    by_cases hib : i = hash ht k
    · subst hib
      have h2 : (ht.table.set (hash ht k) (installChain k v (bucketOf ht k))).get? (hash ht k)
          = some (installChain k v (bucketOf ht k)) :=
        List.get?_set_eq_of_lt _ hlt
      have hceq : c = installChain k v (bucketOf ht k) := Option.some_injective _ (hi.symm.trans h2)
      subst hceq
      rcases mem_keys_installChain.mp hx with h3 | h3
      · exact Or.inl h3
      · exact Or.inr ⟨hash ht k, bucketOf ht k, get?_bucketOf h.len h.pos k, h3⟩
    · have h2 : (ht.table.set (hash ht k) (installChain k v (bucketOf ht k))).get? i
          = ht.table.get? i := List.get?_set_ne _ _ (Ne.symm hib)
      exact Or.inr ⟨i, c, h2.symm.trans hi, hx⟩
  · intro hx
    have hset : (ht.table.set (hash ht k) (installChain k v (bucketOf ht k))).get? (hash ht k)
        = some (installChain k v (bucketOf ht k)) :=
      List.get?_set_eq_of_lt _ hlt
    have hset' : (symtabInstall ht k v).table.get? (hash ht k)
        = some (installChain k v (bucketOf ht k)) := hset
    rcases hx with h1 | ⟨i, c, hi, hx⟩
    · exact ⟨hash ht k, installChain k v (bucketOf ht k), hset',
        h1 ▸ key_mem_installChain k v (bucketOf ht k)⟩
    · by_cases hib : i = hash ht k
      · subst hib
        have hceq : c = bucketOf ht k :=
          Option.some_injective _ (hi.symm.trans (get?_bucketOf h.len h.pos k))

        subst hceq
        exact ⟨hash ht k, installChain k v (bucketOf ht k), hset',
          mem_keys_installChain.mpr (Or.inr hx)⟩
      · have h2 : (ht.table.set (hash ht k) (installChain k v (bucketOf ht k))).get? i
            = ht.table.get? i := List.get?_set_ne _ _ (Ne.symm hib)
        exact ⟨i, c, h2.trans hi, hx⟩

theorem numEntries_eq_card {ht : Hashtable} (h : Inv ht) :
    numEntries ht = (tableKeys ht).toFinset.card := by
  rw [numEntries_eq_length_tableKeys, List.toFinset_card_of_nodup (nodup_tableKeys h)]

theorem tableKeys_createTable (n : Nat) : tableKeys (createTable n) = [] := by
  rw [List.eq_nil_iff_forall_not_mem]
  intro x hx
  rcases mem_tableKeys.mp hx with ⟨i, c, hi, hx'⟩
  rw [List.eq_of_mem_replicate (List.get?_mem hi)] at hx'
  simp at hx'

theorem runInstalls_inv_keys (ops : List (List Nat × Nat)) :
    ∀ ht : Hashtable, Inv ht →
      Inv (runInstalls ht ops) ∧
      (tableKeys (runInstalls ht ops)).toFinset
        = (tableKeys ht).toFinset ∪ (ops.map Prod.fst).toFinset := by
  induction ops with
  | nil =>
    intro ht h
    exact ⟨h, by simp [runInstalls]⟩
  | cons op rest ih =>
    intro ht h
    obtain ⟨k, v⟩ := op
    have h1 : Inv (symtabInstall ht k v) := inv_symtabInstall h k v
    obtain ⟨h2, h3⟩ := ih (symtabInstall ht k v) h1
    refine ⟨by simpa [runInstalls] using h2, ?_⟩
    show (tableKeys (runInstalls (symtabInstall ht k v) rest)).toFinset = _
    rw [h3, toFinset_tableKeys_install h k v]
    simp only [List.map_cons, List.toFinset_cons]
    rw [Finset.insert_union, Finset.union_insert]

theorem deleteRun_eq_none {ht : Hashtable} {is : List Nat} {i : Nat}
    (hmem : i ∈ is) (hstep : deleteStep ht i = none) : deleteRun ht is = none := by
  induction is with
  | nil => exact absurd hmem (by simp)
  | cons j js ih =>
    rcases List.mem_cons.mp hmem with h1 | h1
    · subst h1
      rw [deleteRun, hstep]
    · rcases hj : deleteStep ht j with _ | k
      · rw [deleteRun, hj]
      · rw [deleteRun, hj, ih h1]

theorem nextBucket_sentinel_frame {ht : Hashtable} {e0 : ElemPtr} {i d : Nat}
    {it' : Iter} {d' : Nat}
    (h : nextBucket ht e0 i d = some (it', d', none)) : d' = d := by
  unfold nextBucket at h
  split at h
  · simp only [Option.some.injEq, Prod.mk.injEq] at h
    exact h.2.1.symm
  · split at h
    · exact absurd h (by simp)
    · split at h
      · exact absurd h (by simp)
      · simp only [Option.some.injEq, Prod.mk.injEq] at h
        exact h.2.1.symm
      · simp only [Option.some.injEq, Prod.mk.injEq] at h
        exact absurd h.2.2 (by simp)

/-- C1: the claim says `symtabDelete` visits exactly the bucket indices
`0 .. capacity-1`, frees every entry of every chain, and skips empty
buckets.  The code does none of this: its loop bound `i <= size` makes it
visit index `capacity` as well (an out-of-bounds read on every table), it
dereferences the chain head of every bucket without a null check, and it
frees at most the head key of a bucket.  Formally: the teardown loop's
index list contains `capacity`, and the modelled execution is undefined
(`none`) on every well-formed table. -/
theorem delete_overruns_and_crashes (ht : Hashtable) (h : WF ht) :
    symtabDelete ht = none ∧ ht.size ∈ deleteIndices ht := by
  have hmem : ht.size ∈ deleteIndices ht := by
    unfold deleteIndices
    exact List.mem_range.mpr (Nat.lt_succ_self ht.size)
  constructor
  · unfold symtabDelete
    apply deleteRun_eq_none hmem
    unfold deleteStep
    have h0 : ht.table.get? ht.size = none := List.get?_eq_none.mpr (le_of_eq h.2)
    rw [h0]
  · exact hmem

theorem delete_overruns_and_crashes_witness :
    WF { size := 1, table := [[]] } ∧
      symtabDelete { size := 1, table := [[]] } = none ∧
      (1 : Nat) ∈ deleteIndices { size := 1, table := [[]] } :=
  ⟨by decide, delete_overruns_and_crashes { size := 1, table := [[]] } (by decide)⟩

/-- C2: `lookup` (and its wrapper `symtabLookup`) inspects only the head
entry of the bucket selected by the hash of the key: it returns a stored
value exactly when that head entry carries the candidate key
byte-for-byte, and the not-found sentinel in every other case (empty
bucket, or the key stored anywhere past the head). -/
theorem lookup_reads_only_bucket_head (ht : Hashtable) (_hwf : WF ht) (k : List Nat) (v : Nat) :
    symtabLookup ht k = some v ↔ ∃ rest, bucketOf ht k = ⟨k, v⟩ :: rest := by
  have hwrap : symtabLookup ht k = lookup ht k := rfl
  rcases hb : bucketOf ht k with _ | ⟨⟨pk, pv⟩, ps⟩
  · have hl : lookup ht k = none := by
      unfold lookup
      rw [hb]
    rw [hwrap, hl]
    simp
  · have hl : lookup ht k = if strcmp k pk ≠ 0 then none else some pv := by
      unfold lookup
      rw [hb]
    rw [hwrap, hl]
    by_cases hc : strcmp k pk = 0
    · have hk : k = pk := strcmp_eq_zero_iff.mp hc
      subst hk
      rw [if_neg (by simp [strcmp_self])]
      constructor
      · intro hv
        injection hv with hv
        exact ⟨ps, by rw [hv]⟩
      · rintro ⟨rest, heq⟩
        injection heq with h1 h2
        injection h1 with h3 h4
        rw [h4]
    · rw [if_pos hc]
      constructor
      · intro hv
        exact absurd hv (by simp)
      · rintro ⟨rest, heq⟩
        injection heq with h1 h2
        injection h1 with h3 h4
        exact absurd (by rw [h3]; exact strcmp_self k) hc

theorem lookup_reads_only_bucket_head_witness :
    WF { size := 1, table := [[⟨[97], 5⟩]] } ∧
      symtabLookup { size := 1, table := [[⟨[97], 5⟩]] } [97] = some 5 :=
  ⟨by decide,
    (lookup_reads_only_bucket_head { size := 1, table := [[⟨[97], 5⟩]] }
      (by decide) [97] 5).mpr ⟨[], by decide⟩⟩

/-- C4: whenever `symtabInstall` returns the failure result 0, the cause
is an allocation failure (the entry-node malloc; a fortiori one of the
two mallocs of the claim) and the table is left exactly unchanged.  (The
converse does not hold: a key-copy malloc failure is not signalled — the
unchecked `strcpy` into the NULL key is undefined behaviour, modelled as
`none`, so it never produces a defined failure return.) -/
theorem install_fails_only_on_malloc_unchanged (ea ka : Bool) (ht : Hashtable)
    (k : List Nat) (v : Nat) (ht' : Hashtable) (r : Int)
    (h : symtabInstallA ea ka ht k v = some (ht', r)) (hr : r = 0) :
    (ea = false ∨ ka = false) ∧ ht' = ht := by
  subst hr
  unfold symtabInstallA at h
  by_cases hf : chainFind k (bucketOf ht k) = true
  · rw [if_pos hf] at h
    simp only [Option.some.injEq, Prod.mk.injEq] at h
    exact absurd h.2 (by decide)
  · rw [if_neg hf] at h
    by_cases hea : ea = false
    · rw [if_pos hea] at h
      simp only [Option.some.injEq, Prod.mk.injEq] at h
      exact ⟨Or.inl hea, h.1.symm⟩
    · rw [if_neg hea] at h
      by_cases hka : ka = false
      · rw [if_pos hka] at h
        exact absurd h (by simp)
      · rw [if_neg hka] at h
        simp only [Option.some.injEq, Prod.mk.injEq] at h
        exact absurd h.2 (by decide)

theorem install_fails_only_on_malloc_unchanged_witness :
    symtabInstallA false true (createTable 1) [97] 5 = some (createTable 1, 0) ∧
      ((false = false ∨ true = false) ∧ createTable 1 = createTable 1) :=
  ⟨by decide,
    install_fails_only_on_malloc_unchanged false true (createTable 1) [97] 5
      (createTable 1) 0 (by decide) rfl⟩

/-- C9: `symtabCreate` returns the failure handle exactly when the size
hint is below 1 or one of its two allocations fails, and on success the
returned table has capacity `sizeHint` with every bucket empty. -/
theorem create_fails_iff_bad_hint_or_alloc (a b : Bool) (n : Int) :
    (symtabCreate a b n = none ↔ n < 1 ∨ a = false ∨ b = false) ∧
    (∀ ht, symtabCreate a b n = some ht →
      ht.size = n.toNat ∧ 1 ≤ n ∧ ht.table.length = ht.size ∧ ∀ c ∈ ht.table, c = []) := by
  unfold symtabCreate
  constructor
  · split_ifs with h1 h2 h3
    · simp [h1]
    · simp [h2]
    · simp [h3]
    · simp [h1, h2, h3]
  · intro ht hht
    split_ifs at hht with h1 h2 h3
    have hht' : createTable n.toNat = ht := Option.some_injective _ hht
    subst hht'
    refine ⟨rfl, by omega, by simp [createTable], ?_⟩
    intro c hc
    exact List.eq_of_mem_replicate hc

theorem create_fails_iff_bad_hint_or_alloc_witness :
    (createTable 2).size = (2 : Int).toNat ∧ 1 ≤ (2 : Int) ∧
      (createTable 2).table.length = (createTable 2).size ∧
      ∀ c ∈ (createTable 2).table, c = [] :=
  (create_fails_iff_bad_hint_or_alloc true true 2).2 (createTable 2) (by decide)

/-- C10: whenever `symtabNext` returns the end-of-iteration sentinel
(NULL key), the location pointed to by `returnData` is left unmodified:
the final contents of the slot equal its previous contents on every
defined sentinel-returning path. -/
theorem next_sentinel_preserves_returnData (ht : Hashtable) (it : Iter) (d : Nat)
    (it' : Iter) (d' : Nat)
    (h : symtabNext ht it d = some (it', d', none)) : d' = d := by
  unfold symtabNext at h
  split at h
  · exact absurd h (by simp)
  · simp only [Option.some.injEq, Prod.mk.injEq] at h
    exact absurd h.2.2 (by simp)
  · exact nextBucket_sentinel_frame h
  · exact nextBucket_sentinel_frame h
  · simp only [Option.some.injEq, Prod.mk.injEq] at h
    exact absurd h.2.2 (by simp)

theorem next_sentinel_preserves_returnData_witness :
    symtabNext (createTable 2) ⟨1, ElemPtr.dummy []⟩ 42
        = some (⟨2, ElemPtr.dummy []⟩, 42, none) ∧
      (42 : Nat) = 42 := by
  have h : symtabNext (createTable 2) ⟨1, ElemPtr.dummy []⟩ 42
      = some (⟨2, ElemPtr.dummy []⟩, 42, none) := by
    simp [symtabNext, nextBucket, createTable]
  exact ⟨h, next_sentinel_preserves_returnData (createTable 2) ⟨1, ElemPtr.dummy []⟩ 42
    ⟨2, ElemPtr.dummy []⟩ 42 h⟩

/-- C5: for a well-formed table whose selected bucket is sorted (as every
reachable bucket is, see C6): if an entry with exactly the candidate key
exists in that bucket, `symtabInstall` overwrites that entry's value in
place, leaving every key and the chain order untouched, and returns
success; otherwise it splices a new entry carrying the key copy and the
value before the first entry whose key is greater than or equal to the
candidate (covering new-head, new-tail and interior positions).  The
scanned part of the chain consists exactly of the entries with keys
strictly below the candidate. -/
theorem install_updates_in_place_or_splices_sorted (ht : Hashtable) (k : List Nat) (v : Nat)
    (hwf : WF ht) (hs : List.Pairwise entLt (bucketOf ht k)) :
    symtabInstallA true true ht k v = some (symtabInstall ht k v, 1) ∧
    (k ∈ (bucketOf ht k).map Entry.key →
      bucketOf (symtabInstall ht k v) k
        = (bucketOf ht k).map fun e => if e.key = k then ⟨e.key, v⟩ else e) ∧
    (k ∉ (bucketOf ht k).map Entry.key →
      bucketOf (symtabInstall ht k v) k
        = (bucketOf ht k).takeWhile (gtKey k) ++ ⟨k, v⟩ :: (bucketOf ht k).dropWhile (gtKey k)) ∧
    (∀ e ∈ (bucketOf ht k).takeWhile (gtKey k), strcmp e.key k < 0) ∧
    (∀ e ds, (bucketOf ht k).dropWhile (gtKey k) = e :: ds → 0 ≤ strcmp e.key k) := by
  have hbi : bucketOf (symtabInstall ht k v) k = installChain k v (bucketOf ht k) :=
    bucketOf_symtabInstall hwf.2 hwf.1 k v
  refine ⟨?_, ?_, ?_, ?_, ?_⟩
  · unfold symtabInstallA
    split
    · rfl
    · rfl
  · intro hm
    rw [hbi]
    exact installChain_of_mem hs hm
  · intro hm
    rw [hbi]
    exact installChain_of_not_mem hm
  · intro e he
    have hp : gtKey k e = true := List.mem_takeWhile_imp he
    have : 0 < strcmp k e.key := by simpa [gtKey] using hp
    exact strcmp_pos_iff.mp this
  · intro e ds hd
    have hp : gtKey k e = false := dropWhile_head_false hd
    have h1 : ¬ 0 < strcmp k e.key := by
      intro hc
      simp [gtKey, hc] at hp
    have h2 := strcmp_swap k e.key
    omega

theorem install_updates_in_place_or_splices_sorted_witness :
    bucketOf (symtabInstall { size := 1, table := [[⟨[98], 2⟩]] } [97] 1) [97]
      = [⟨[97], 1⟩, ⟨[98], 2⟩] :=
  ((install_updates_in_place_or_splices_sorted { size := 1, table := [[⟨[98], 2⟩]] }
    [97] 1 (by decide) (by decide)).2.2.1 (by decide)).trans (by decide)

/-- C6: every table reachable by a `symtabCreate` followed by any
sequence of `symtabInstall` operations has every bucket chain strictly
sorted by key (ascending `strcmp` order), with no duplicate key inside a
bucket, and its total number of entries equals — in particular never
exceeds — the number of distinct keys installed. -/
theorem reachable_tables_sorted_no_duplicates (n : Nat) (hn : 0 < n)
    (ops : List (List Nat × Nat)) :
    (∀ c ∈ (runInstalls (createTable n) ops).table, List.Pairwise entLt c) ∧
    (∀ c ∈ (runInstalls (createTable n) ops).table, (c.map Entry.key).Nodup) ∧
    numEntries (runInstalls (createTable n) ops) = ((ops.map Prod.fst).dedup).length := by
  obtain ⟨hinv, hkeys⟩ := runInstalls_inv_keys ops (createTable n) (inv_createTable hn)
  refine ⟨fun c hc => hinv.sorted c hc, ?_, ?_⟩
  · intro c hc
    exact List.Pairwise.map _ (fun a b hab => entLt_key_ne hab) (hinv.sorted c hc)
  · rw [numEntries_eq_card hinv, hkeys, tableKeys_createTable]
    simp only [List.toFinset_nil, Finset.empty_union]
    exact List.card_toFinset _

theorem reachable_tables_sorted_no_duplicates_witness :
    numEntries (runInstalls (createTable 1) [([97], 5), ([97], 6)]) = 1 :=
  (reachable_tables_sorted_no_duplicates 1 (by decide)
    [([97], 5), ([97], 6)]).2.2.trans (by decide)

/-- C3: counterexample to "iteration yields all pairs and then the end
sentinel".  Install the single key "b" (byte 98, which hashes to bucket
0 of 2) into a fresh 2-bucket table.  The first `symtabNext` yields the
pair, but the second call — instead of returning the end sentinel —
runs its bucket scan past the end of the bucket array (it reads
`table[2]` of a 2-slot array): undefined behaviour, modelled `none`. -/
theorem iteration_overruns_instead_of_sentinel :
    runInstalls (createTable 2) [([98], 5)]
        = { size := 2, table := [[⟨[98], 5⟩], []] } ∧
    symtabCreateIterator { size := 2, table := [[⟨[98], 5⟩], []] }
        = some ⟨0, ElemPtr.dummy [⟨[98], 5⟩]⟩ ∧
    symtabNext { size := 2, table := [[⟨[98], 5⟩], []] } ⟨0, ElemPtr.dummy [⟨[98], 5⟩]⟩ 42
        = some (⟨0, ElemPtr.chain [⟨[98], 5⟩]⟩, 5, some [98]) ∧
    symtabNext { size := 2, table := [[⟨[98], 5⟩], []] } ⟨0, ElemPtr.chain [⟨[98], 5⟩]⟩ 42
        = none := by
  refine ⟨by decide, ?_, ?_, ?_⟩
  · simp [symtabCreateIterator, bucketScan]
  · simp [symtabNext]
  · simp [symtabNext, nextBucket, bucketScan]

/-- C7: counterexample to "exhaustion is idempotent".  Install the single
key "d" (byte 100, which hashes to bucket 0 of 3) into a fresh 3-bucket
table.  The second `symtabNext` returns the end sentinel but leaves the
cursor's element pointer NULL (`chain []`); the third call dereferences
that NULL pointer (`it->elem->next`): undefined behaviour, modelled
`none`, instead of returning the sentinel again. -/
theorem next_after_exhaustion_dereferences_null :
    runInstalls (createTable 3) [([100], 7)]
        = { size := 3, table := [[⟨[100], 7⟩], [], []] } ∧
    symtabCreateIterator { size := 3, table := [[⟨[100], 7⟩], [], []] }
        = some ⟨0, ElemPtr.dummy [⟨[100], 7⟩]⟩ ∧
    symtabNext { size := 3, table := [[⟨[100], 7⟩], [], []] } ⟨0, ElemPtr.dummy [⟨[100], 7⟩]⟩ 42
        = some (⟨0, ElemPtr.chain [⟨[100], 7⟩]⟩, 7, some [100]) ∧
    symtabNext { size := 3, table := [[⟨[100], 7⟩], [], []] } ⟨0, ElemPtr.chain [⟨[100], 7⟩]⟩ 42
        = some (⟨2, ElemPtr.chain []⟩, 42, none) ∧
    symtabNext { size := 3, table := [[⟨[100], 7⟩], [], []] } ⟨2, ElemPtr.chain []⟩ 42
        = none := by
  refine ⟨by decide, ?_, ?_, ?_, ?_⟩
  · simp [symtabCreateIterator, bucketScan]
  · simp [symtabNext]
  · simp [symtabNext, nextBucket, bucketScan]
  · simp [symtabNext]

/-- C8: counterexample to "the empty-table iterator works for any
positive capacity".  On an entirely empty table of capacity 1 the bucket
scan of `symtabCreateIterator` reads `table[1]` of a 1-slot bucket array
— an out-of-bounds read, modelled `none` — instead of producing an
exhausted cursor.  (`symtabLookup` does report not-found on the empty
table, and for capacity at least 2 the iterator part behaves as claimed;
the failure is specific to the last bucket being reached with the scan
index already at the end.) -/
theorem create_iterator_empty_capacity_one_out_of_bounds :
    WF (createTable 1) ∧ numEntries (createTable 1) = 0 ∧
    symtabCreateIterator (createTable 1) = none ∧
    symtabLookup (createTable 1) [97] = none := by
  refine ⟨by decide, by decide, ?_, by decide⟩
  simp [symtabCreateIterator, createTable, bucketScan]

end Symtab
